import Mathlib

/-!
The CppBook `range` utility (`CCppBookCode/include/range.h`)

A shallow embedding of the class template `range< T >` with its nested cursor
class `range_iter`.

* Both constructors are embedded together with their `assert` lines: the flag
  `ndebug` says whether the translation unit is compiled with `NDEBUG`
  (assertions compiled out) or not (a failing assertion aborts).
* The two `for` loops of the conversion operator and the range-based `for`
  traversal are embedded with a fuel counter: one unit of fuel pays for one
  evaluation of the loop condition, `none` means the fuel ran out before the
  loop was left.
* The additions `i += kStep` and `fVal += kStep` are embedded twice: over the
  unbounded integers (`pushLoop`, `range_iter.incr`), and in a fixed-width
  integral element type `T : IntT` (`pushLoopT`, `range_iter.incrT`), where a sum
  is reduced modulo `2 ^ bits` into the range of `T`. The two agree as long as no
  sum a loop computes leaves `T` (`toVectorT_eq_toVector`).
-/

namespace CppBook

/-! ## Data model -/

/-- How a constructor call can fail: an `assert` that aborts (only when `NDEBUG`
is not defined) or the `std::out_of_range` exception with its message. -/
inductive Failure where
  | assertion_failed : Failure
  | out_of_range (what : String) : Failure
  deriving DecidableEq, Repr

/-- The data members `const T kFrom, kEnd, kStep;` of `class range`. -/
structure range where
  kFrom : Int
  kEnd : Int
  kStep : Int
  deriving DecidableEq, Repr

/-- The data members `T fVal; const T kStep;` of `class range_iter`. -/
structure range_iter where
  fVal : Int
  kStep : Int
  deriving DecidableEq, Repr

/-! ## Constructors -/

/-- Constructor `range( const T from, const T end, const T step = 1 )`:
the members are initialised, then `assert( kStep != 0 )` runs (unless `NDEBUG`),
then `if( kStep == 0 ) throw std::out_of_range( ... )`. -/
def range.ctor (ndebug : Bool) (frm en step : Int) : Except Failure range :=
  let self : range := { kFrom := frm, kEnd := en, kStep := step }
  if !ndebug && !(decide (self.kStep ≠ 0)) then
    Except.error Failure.assertion_failed
  else if self.kStep = 0 then
    Except.error (Failure.out_of_range "step param must not be 0")
  else
    Except.ok self

/-- The two-argument call `range( from, end )`, which takes the default `step = 1`. -/
def range.ctor2 (ndebug : Bool) (frm en : Int) : Except Failure range :=
  range.ctor ndebug frm en 1

/-- Constructor `range( const T end )`: `kFrom( 0 ), kEnd( end ), kStep( 1 )`, then
`assert( kEnd > 0 )` (unless `NDEBUG`). -/
def range.ctor1 (ndebug : Bool) (en : Int) : Except Failure range :=
  let self : range := { kFrom := 0, kEnd := en, kStep := 1 }
  if !ndebug && !(decide (self.kEnd > 0)) then
    Except.error Failure.assertion_failed
  else
    Except.ok self

/-! ## The cursor `range_iter` -/

/-- `const T operator * () const { return fVal; }` -/
def range_iter.deref (it : range_iter) : Int := it.fVal

/-- `bool operator != ( const range_iter & ri ) const`:
`return kStep > 0 ? fVal < ri.fVal : fVal > ri.fVal;` -/
def range_iter.ne (it ri : range_iter) : Bool :=
  if it.kStep > 0 then decide (it.fVal < ri.fVal) else decide (it.fVal > ri.fVal)

/-- `bool operator == ( const range_iter & ri ) const { return ! operator != ( ri ); }` -/
def range_iter.eq (it ri : range_iter) : Bool := !(it.ne ri)

/-- `const range_iter begin() { return range_iter( kFrom, kStep ); }` -/
def range.begin_ (r : range) : range_iter := { fVal := r.kFrom, kStep := r.kStep }

/-- `const range_iter end() { return range_iter( kEnd, kStep ); }` -/
def range.end_ (r : range) : range_iter := { fVal := r.kEnd, kStep := r.kStep }

/-! ## Conversion to `std::vector< T >` -/

/-- One `for( T i {...}; cond( i ); i += step ) v.push_back( i ); return v;` loop,
entered with the current `i` and `v`; each test of `cond` costs one unit of fuel. The sum
`i += step` is taken over the unbounded integers (`pushLoopT` takes it in a fixed-width
`T`). -/
def pushLoop (cond : Int → Bool) (step : Int) : Nat → Int → List Int → Option (List Int)
  | 0, _, _ => none
  | fuel + 1, i, v =>
    if cond i then pushLoop cond step fuel (i + step) (v ++ [i]) else some v

/-- The lambda `p`:
`[this]( auto v ){ for( T i {kFrom}; i<kEnd; i+=kStep ) v.push_back(i); return v; }` -/
def range.p (r : range) (fuel : Nat) (v : List Int) : Option (List Int) :=
  pushLoop (fun i => decide (i < r.kEnd)) r.kStep fuel r.kFrom v

/-- The lambda `n`:
`[this]( auto v ){ for( T i {kFrom}; i>kEnd; i+=kStep ) v.push_back(i); return v; }` -/
def range.n (r : range) (fuel : Nat) (v : List Int) : Option (List Int) :=
  pushLoop (fun i => decide (i > r.kEnd)) r.kStep fuel r.kFrom v

/-- `operator std::vector< T > ( void )`:
`return kStep > 0 ? p( std::vector< T >() ) : n( std::vector< T >() );` -/
def range.toVector (r : range) (fuel : Nat) : Option (List Int) :=
  if r.kStep > 0 then r.p fuel [] else r.n fuel []

/-! ## Range-based `for` traversal -/

/-- Auxiliary: the arithmetic progression `i, i + step, ..., i + (k - 1) * step`. -/
def progression (i step : Int) (k : Nat) : List Int :=
  (List.range k).map (fun j : Nat => i + (j : Int) * step)

/-- The conversion operator returns `v`: some finite amount of fuel is enough and
`v` is the vector returned. -/
def range.Materializes (r : range) (v : List Int) : Prop :=
  ∃ fuel, r.toVector fuel = some v

/-- The operation `i += step` of an unsigned `w`-bit `T`: the sum modulo `2 ^ w`. -/
def wrapAdd (w : Nat) (i step : Int) : Int := (i + step) % 2 ^ w

/-- The loop of `pushLoop` when `T` is an unsigned `w`-bit type. -/
def pushLoopW (w : Nat) (cond : Int → Bool) (step : Int) :
    Nat → Int → List Int → Option (List Int)
  | 0, _, _ => none
  | fuel + 1, i, v =>
    if cond i then pushLoopW w cond step fuel (wrapAdd w i step) (v ++ [i]) else some v

/-- The conversion operator when `T` is an unsigned `w`-bit type (such as the default
`T = size_t`): `kStep > 0 ? p( ... ) : n( ... )` with the loops of `p` and `n` wrapping. -/
def range.toVectorW (w : Nat) (r : range) (fuel : Nat) : Option (List Int) :=
  if r.kStep > 0 then pushLoopW w (fun i => decide (i < r.kEnd)) r.kStep fuel r.kFrom []
  else pushLoopW w (fun i => decide (i > r.kEnd)) r.kStep fuel r.kFrom []

/-- The members of `r` are values of the unsigned `w`-bit type. -/
def range.FitsW (w : Nat) (r : range) : Prop :=
  (0 ≤ r.kFrom ∧ r.kFrom < 2 ^ w) ∧ (0 ≤ r.kEnd ∧ r.kEnd < 2 ^ w) ∧
    (0 ≤ r.kStep ∧ r.kStep < 2 ^ w)

/-! ## The instance at a fixed-width integral element type -/

/-- A fixed-width integral element type `T`: `bits` wide, unsigned or signed (two's
complement). `size_t` on a 64-bit target is `{ signed := false, bits := 64 }`, `int` is
`{ signed := true, bits := 32 }`. -/
structure IntT where
  signed : Bool
  bits : Nat
  deriving DecidableEq, Repr

/-- The smallest value of `T`. -/
def IntT.lo (T : IntT) : Int := if T.signed then -(2 ^ T.bits / 2) else 0

/-- One more than the largest value of `T`. -/
def IntT.hi (T : IntT) : Int := T.lo + 2 ^ T.bits

/-- The value of `T` that stores the mathematical result `x` of an addition: `x` reduced
modulo `2 ^ bits` into the range of `T`. This is the language rule for an unsigned `T` and
the narrowing conversion for a signed `T` narrower than `int`; for `int` and wider signed
types an overflowing sum is undefined and the two's complement value stands for it. -/
def IntT.wrap (T : IntT) (x : Int) : Int := (x - T.lo) % 2 ^ T.bits + T.lo

/-- The integer `x` is a value of `T`. -/
def IntT.Holds (T : IntT) (x : Int) : Prop := T.lo ≤ x ∧ x < T.hi

instance IntT.decHolds (T : IntT) (x : Int) : Decidable (T.Holds x) := by
  unfold IntT.Holds
  infer_instance

/-- The loop of `pushLoop` with `i += step` computed in `T`. -/
def pushLoopT (T : IntT) (cond : Int → Bool) (step : Int) :
    Nat → Int → List Int → Option (List Int)
  | 0, _, _ => none
  | fuel + 1, i, v =>
    if cond i then pushLoopT T cond step fuel (T.wrap (i + step)) (v ++ [i]) else some v

/-- The conversion operator of `range< T >`:
`return kStep > 0 ? p( std::vector< T >() ) : n( std::vector< T >() );` with the loops of
`p` (`i<kEnd`) and `n` (`i>kEnd`) adding in `T`. -/
def range.toVectorT (T : IntT) (r : range) (fuel : Nat) : Option (List Int) :=
  if r.kStep > 0 then pushLoopT T (fun i => decide (i < r.kEnd)) r.kStep fuel r.kFrom []
  else pushLoopT T (fun i => decide (i > r.kEnd)) r.kStep fuel r.kFrom []

/-- The cursor operation `operator ++` of `range< T >`: `fVal += kStep` computed in `T`. -/
def range_iter.incrT (T : IntT) (it : range_iter) : range_iter :=
  { it with fVal := T.wrap (it.fVal + it.kStep) }

/-- The loop of `forEachLoop` with the `operator ++` of `range< T >`. -/
def forEachLoopT (T : IntT) (last : range_iter) :
    Nat → range_iter → List Int → Option (List Int)
  | 0, _, _ => none
  | fuel + 1, it, seen =>
    if it.ne last then forEachLoopT T last fuel (it.incrT T) (seen ++ [it.deref])
    else some seen

/-- The range-based `for` over a `range< T >`. -/
def range.forEachT (T : IntT) (r : range) (fuel : Nat) : Option (List Int) :=
  forEachLoopT T r.end_ fuel r.begin_ []

/-- The members of `r` are values of `T`. -/
def range.FitsT (T : IntT) (r : range) : Prop :=
  T.Holds r.kFrom ∧ T.Holds r.kEnd ∧ T.Holds r.kStep

instance range.decFitsT (T : IntT) (r : range) : Decidable (r.FitsT T) := by
  unfold range.FitsT
  infer_instance

/-- No addition the loops of `r` execute leaves `T`: the members are values of `T`, and
whenever `kFrom + j * kStep` passes the loop test (`< kEnd` for `kStep > 0`, `> kEnd`
otherwise), the next sum `kFrom + (j + 1) * kStep` is a value of `T`. -/
def range.RunsInT (T : IntT) (r : range) : Prop :=
  r.FitsT T ∧
  ∀ j : Nat,
    (if r.kStep > 0 then r.kFrom + (j : Int) * r.kStep < r.kEnd
      else r.kFrom + (j : Int) * r.kStep > r.kEnd) →
    T.Holds (r.kFrom + ((j : Int) + 1) * r.kStep)

/-- The conversion operator of `range< T >` returns `v`. -/
def range.MaterializesT (T : IntT) (r : range) (v : List Int) : Prop :=
  ∃ fuel, r.toVectorT T fuel = some v

/-! ## Lemmas on the loops -/

theorem progression_length (i step : Int) (k : Nat) : (progression i step k).length = k := by
  simp [progression]

theorem progression_succ (i step : Int) (k : Nat) :
    progression i step (k + 1) = i :: progression (i + step) step k := by
  simp only [progression, List.range_succ_eq_map, List.map_cons, List.map_map]
  refine congrArg₂ _ (by simp) (List.map_congr_left ?_)
  intro j _
  simp only [Function.comp_apply, Nat.succ_eq_add_one]
  push_cast
  ring

theorem progression_get (i step : Int) (k j : Nat) (h : j < (progression i step k).length) :
    (progression i step k).get ⟨j, h⟩ = i + (j : Int) * step := by
  simp [progression]

/-- A loop whose condition holds at the first `k` values and fails at the next one is
left after exactly `k + 1` tests, having pushed those `k` values. -/
theorem pushLoop_run (cond : Int → Bool) (step : Int) :
    ∀ (k : Nat) (i : Int) (v : List Int) (fuel : Nat),
      (∀ j : Nat, j < k → cond (i + (j : Int) * step) = true) →
      cond (i + (k : Int) * step) = false →
      pushLoop cond step fuel i v =
        if k < fuel then some (v ++ progression i step k) else none := by
  intro k
  induction k with
  | zero =>
    intro i v fuel _ h0
    cases fuel with
    | zero => simp [pushLoop]
    | succ f =>
      simp only [Nat.cast_zero, zero_mul, add_zero] at h0
      simp [pushLoop, h0, progression]
  | succ k ih =>
    intro i v fuel hlt hk
    cases fuel with
    | zero => simp [pushLoop]
    | succ f =>
      have h0 : cond i = true := by simpa using hlt 0 (Nat.succ_pos k)
      have h1 : ∀ j : Nat, j < k → cond (i + step + (j : Int) * step) = true := by
        intro j hj
        have h := hlt (j + 1) (by omega)
        rw [← h]
        congr 1
        push_cast
        ring
      have h2 : cond (i + step + (k : Int) * step) = false := by
        rw [← hk]
        congr 1
        push_cast
        ring
      simp [pushLoop, h0, ih (i + step) (v ++ [i]) f h1 h2, progression_succ]

theorem exists_steps_up (i e s : Int) (hs : 0 < s) :
    ∃ k : Nat, (∀ j : Nat, j < k → i + (j : Int) * s < e) ∧ e ≤ i + (k : Int) * s := by
  have h : ∃ k : Nat, e ≤ i + (k : Int) * s := by
    refine ⟨(e - i).toNat, ?_⟩
    have h1 : e - i ≤ ((e - i).toNat : Int) := Int.self_le_toNat _
    have h2 : (0 : Int) ≤ ((e - i).toNat : Int) := Int.ofNat_nonneg _
    nlinarith
  classical
  exact ⟨Nat.find h, fun j hj => not_le.mp (Nat.find_min h hj), Nat.find_spec h⟩

theorem exists_steps_down (i e s : Int) (hs : s < 0) :
    ∃ k : Nat, (∀ j : Nat, j < k → e < i + (j : Int) * s) ∧ i + (k : Int) * s ≤ e := by
  obtain ⟨k, h1, h2⟩ := exists_steps_up (-i) (-e) (-s) (by omega)
  refine ⟨k, fun j hj => ?_, ?_⟩
  · have := h1 j hj
    linarith
  · linarith

/-- The run of the conversion operator: the number `k` of elements, the fuel it
needs and the vector it returns. -/
theorem toVector_run (r : range) (hs : r.kStep ≠ 0) :
    ∃ k : Nat,
      (∀ fuel, r.toVector fuel =
        if k < fuel then some (progression r.kFrom r.kStep k) else none) ∧
      (0 < r.kStep → (∀ j : Nat, j < k → r.kFrom + (j : Int) * r.kStep < r.kEnd) ∧
        r.kEnd ≤ r.kFrom + (k : Int) * r.kStep) ∧
      (r.kStep < 0 → (∀ j : Nat, j < k → r.kEnd < r.kFrom + (j : Int) * r.kStep) ∧
        r.kFrom + (k : Int) * r.kStep ≤ r.kEnd) := by
  rcases lt_or_gt_of_ne hs with hneg | hpos
  · obtain ⟨k, h1, h2⟩ := exists_steps_down r.kFrom r.kEnd r.kStep hneg
    refine ⟨k, fun fuel => ?_, fun h => absurd h (by omega), fun _ => ⟨h1, h2⟩⟩
    have hn : ¬ r.kStep > 0 := by omega
    simp only [range.toVector, range.n, if_neg hn]
    rw [pushLoop_run _ _ k r.kFrom [] fuel (fun j hj => by simpa using h1 j hj) (by simpa using h2)]
    simp
  · obtain ⟨k, h1, h2⟩ := exists_steps_up r.kFrom r.kEnd r.kStep hpos
    refine ⟨k, fun fuel => ?_, fun _ => ⟨h1, h2⟩, fun h => absurd h (by omega)⟩
    simp only [range.toVector, range.p, if_pos hpos]
    rw [pushLoop_run _ _ k r.kFrom [] fuel (fun j hj => by simpa using h1 j hj) (by simpa using h2)]
    simp

/-- What `Materializes` amounts to: the returned vector is the progression of the
`k` values that pass the loop test. -/
theorem materializes_run (r : range) (hs : r.kStep ≠ 0) :
    ∃ k : Nat,
      (∀ v, r.Materializes v ↔ v = progression r.kFrom r.kStep k) ∧
      (∀ fuel, (r.toVector fuel).isSome = decide (k < fuel)) ∧
      (0 < r.kStep → (∀ j : Nat, j < k → r.kFrom + (j : Int) * r.kStep < r.kEnd) ∧
        r.kEnd ≤ r.kFrom + (k : Int) * r.kStep) ∧
      (r.kStep < 0 → (∀ j : Nat, j < k → r.kEnd < r.kFrom + (j : Int) * r.kStep) ∧
        r.kFrom + (k : Int) * r.kStep ≤ r.kEnd) := by
  obtain ⟨k, hrun, hup, hdown⟩ := toVector_run r hs
  refine ⟨k, fun v => ⟨?_, ?_⟩, fun fuel => ?_, hup, hdown⟩
  · rintro ⟨fuel, hf⟩
    rw [hrun fuel] at hf
    by_cases hk : k < fuel
    · rw [if_pos hk] at hf
      exact (Option.some.inj hf).symm
    · rw [if_neg hk] at hf
      cases hf
  · rintro rfl
    exact ⟨k + 1, by rw [hrun (k + 1), if_pos (Nat.lt_succ_self k)]⟩
  · rw [hrun fuel]
    by_cases hk : k < fuel <;> simp [hk]

/-- The same for the object built from `from`, `end` and `step`. -/
theorem mk_run (frm en step : Int) (hs : step ≠ 0) :
    ∃ k : Nat,
      (∀ v, (range.mk frm en step).Materializes v ↔ v = progression frm step k) ∧
      (∀ fuel, ((range.mk frm en step).toVector fuel).isSome = decide (k < fuel)) ∧
      (0 < step → (∀ j : Nat, j < k → frm + (j : Int) * step < en) ∧
        en ≤ frm + (k : Int) * step) ∧
      (step < 0 → (∀ j : Nat, j < k → en < frm + (j : Int) * step) ∧
        frm + (k : Int) * step ≤ en) :=
  materializes_run (range.mk frm en step) hs

/-- C3 (as amended): the three-argument constructor fails exactly when `step == 0`. The
failure is the `std::out_of_range` exception when assertions are compiled out (`NDEBUG`) and
the failed `assert( kStep != 0 )` otherwise; for every `step ≠ 0`, in either build, it
succeeds and the new object holds exactly the given `from`, `end` and `step`. -/
theorem ctor_outcome (ndebug : Bool) (frm en step : Int) :
    ((∃ what, range.ctor ndebug frm en step = Except.error (Failure.out_of_range what)) ↔
      (step = 0 ∧ ndebug = true)) ∧
    (range.ctor ndebug frm en step = Except.error Failure.assertion_failed ↔
      (step = 0 ∧ ndebug = false)) ∧
    (range.ctor ndebug frm en step = Except.ok (range.mk frm en step) ↔ step ≠ 0) ∧
    (∀ r, range.ctor ndebug frm en step = Except.ok r →
      r.kFrom = frm ∧ r.kEnd = en ∧ r.kStep = step) := by
  by_cases hs : step = 0 <;> cases ndebug <;> simp [range.ctor, hs]

/-- C3 as stated fails in a build with assertions enabled: `range( 0, 10, 0 )` stops at
`assert( kStep != 0 )`, so the `std::out_of_range` exception is never thrown although
`step == 0`. -/
theorem ctor_zero_step_assert_counterexample :
    range.ctor false 0 10 0 = Except.error Failure.assertion_failed ∧
    ¬ ((∃ what, range.ctor false 0 10 0 = Except.error (Failure.out_of_range what)) ↔
      (0 : Int) = 0) := by
  refine ⟨rfl, fun h => ?_⟩
  obtain ⟨what, hw⟩ := h.2 rfl
  simp [range.ctor] at hw

/-- C6: for `step ≠ 0`, when `from == end` or the sign of `end - from` differs from the sign
of `step`, construction raises no error and the conversion returns the empty vector. -/
theorem materialize_empty (frm en step : Int) (hs : step ≠ 0)
    (h : frm = en ∨ Int.sign (en - frm) ≠ Int.sign step) :
    (∀ ndebug, range.ctor ndebug frm en step = Except.ok (range.mk frm en step)) ∧
    (range.mk frm en step).Materializes [] ∧
    ∀ v, (range.mk frm en step).Materializes v → v = [] := by
  obtain ⟨k, hm, _, hup, hdown⟩ := mk_run frm en step hs
  have hk : k = 0 := by
    by_contra hk0
    have hpos : 0 < k := Nat.pos_of_ne_zero hk0
    rcases lt_or_gt_of_ne hs with hneg | hp
    · have h1 := (hdown hneg).1 0 hpos
      simp only [Nat.cast_zero, zero_mul, add_zero] at h1
      have e1 : Int.sign (en - frm) = -1 := Int.sign_eq_neg_one_of_neg (by omega)
      have e2 : Int.sign step = -1 := Int.sign_eq_neg_one_of_neg hneg
      rcases h with h | h
      · omega
      · exact h (e1.trans e2.symm)
    · have h1 := (hup hp).1 0 hpos
      simp only [Nat.cast_zero, zero_mul, add_zero] at h1
      have e1 : Int.sign (en - frm) = 1 := Int.sign_eq_one_of_pos (by omega)
      have e2 : Int.sign step = 1 := Int.sign_eq_one_of_pos hp
      rcases h with h | h
      · omega
      · exact h (e1.trans e2.symm)
  subst hk
  refine ⟨fun ndebug => ?_, (hm _).2 rfl, fun v hv => (hm v).1 hv⟩
  cases ndebug <;> simp [range.ctor, hs]

/-- C6 at `range( 0, 10, -1 )` (signs disagree) and at `range( 5, 5, 1 )` (`from == end`). -/
theorem materialize_empty_witness :
    ((-1 : Int) ≠ 0 ∧ Int.sign (10 - 0) ≠ Int.sign (-1) ∧
      (range.mk 0 10 (-1)).Materializes []) ∧
    ((1 : Int) ≠ 0 ∧ (5 : Int) = 5 ∧ (range.mk 5 5 1).Materializes []) :=
  ⟨⟨by decide, by decide,
      (materialize_empty 0 10 (-1) (by decide) (Or.inr (by decide))).2.1⟩,
    ⟨by decide, rfl, (materialize_empty 5 5 1 (by decide) (Or.inl rfl)).2.1⟩⟩

/-- C8: for `n > 0` the one-argument constructor `range( n )` gives what `range( 0, n, 1 )`
gives: both succeed, with the same `kFrom`, `kEnd`, `kStep`, the same `begin()` and `end()`
cursors, and the same conversion result, which is `[0, 1, ..., n - 1]`. -/
theorem ctor1_eq_ctor (ndebug : Bool) (n : Int) (hn : 0 < n) :
    range.ctor1 ndebug n = range.ctor ndebug 0 n 1 ∧
    ∃ r1 r3, range.ctor1 ndebug n = Except.ok r1 ∧ range.ctor ndebug 0 n 1 = Except.ok r3 ∧
      (r1.kFrom = r3.kFrom ∧ r1.kEnd = r3.kEnd ∧ r1.kStep = r3.kStep) ∧
      (r1.kFrom = 0 ∧ r1.kEnd = n ∧ r1.kStep = 1) ∧
      (r1.begin_ = r3.begin_ ∧ r1.end_ = r3.end_) ∧
      (∀ fuel, r1.toVector fuel = r3.toVector fuel) ∧
      r1.Materializes ((List.range n.toNat).map (fun j : Nat => (j : Int))) ∧
      r3.Materializes ((List.range n.toNat).map (fun j : Nat => (j : Int))) ∧
      (∀ v, r1.Materializes v ∨ r3.Materializes v →
        v = (List.range n.toNat).map (fun j : Nat => (j : Int))) := by
  have h1 : range.ctor1 ndebug n = Except.ok (range.mk 0 n 1) := by
    cases ndebug <;> simp [range.ctor1, hn]
  have h3 : range.ctor ndebug 0 n 1 = Except.ok (range.mk 0 n 1) := by
    cases ndebug <;> simp [range.ctor]
  obtain ⟨k, hm, _, hup, _⟩ := mk_run 0 n 1 one_ne_zero
  have hk : k = n.toNat := by
    have h2 := (hup one_pos).2
    rcases Nat.eq_zero_or_pos k with h0 | h0
    · subst h0
      simp at h2
      omega
    · have h4 := (hup one_pos).1 (k - 1) (by omega)
      omega
  have hprog : progression 0 1 k = (List.range n.toNat).map (fun j : Nat => (j : Int)) := by
    rw [hk]
    simp [progression]
  rw [hprog] at hm
  refine ⟨h1.trans h3.symm, _, _, h1, h3, ⟨rfl, rfl, rfl⟩, ⟨rfl, rfl, rfl⟩, ⟨rfl, rfl⟩,
    fun _ => rfl, (hm _).2 rfl, (hm _).2 rfl, fun v hv => ?_⟩
  rcases hv with hv | hv <;> exact (hm v).1 hv

/-- C8 at `n = 4`: `range( 4 )` and `range( 0, 4, 1 )` are the same object and convert to
`[0, 1, 2, 3]`. -/
theorem ctor1_eq_ctor_witness :
    (0 : Int) < 4 ∧ range.ctor1 false 4 = range.ctor false 0 4 1 ∧
      range.ctor1 false 4 = Except.ok (range.mk 0 4 1) ∧
      (range.mk 0 4 1).toVector 5 = some [0, 1, 2, 3] :=
  ⟨by decide, (ctor1_eq_ctor false 4 (by decide)).1, rfl, by decide⟩

/-- C9: `a != b` on cursors is `a.fVal < b.fVal` when `a.kStep > 0` and `a.fVal > b.fVal`
otherwise. -/
theorem ne_directional (a b : range_iter) :
    (0 < a.kStep → (a.ne b = true ↔ a.fVal < b.fVal)) ∧
    (¬ 0 < a.kStep → (a.ne b = true ↔ a.fVal > b.fVal)) ∧
    a.ne b = (if 0 < a.kStep then decide (a.fVal < b.fVal) else decide (a.fVal > b.fVal)) := by
  refine ⟨fun h => ?_, fun h => ?_, rfl⟩
  · simp [range_iter.ne, h]
  · simp [range_iter.ne, h]

/-! ## Lemmas on client code -/

/-- C12: every `range` object a constructor returns has `kStep ≠ 0`, for the three-argument
form, the two-argument form and the one-argument form, in either build. -/
theorem ctor_step_ne_zero (ndebug : Bool) (frm en step : Int) (r : range) :
    (range.ctor ndebug frm en step = Except.ok r → r.kStep ≠ 0) ∧
    (range.ctor2 ndebug frm en = Except.ok r → r.kStep ≠ 0) ∧
    (range.ctor1 ndebug en = Except.ok r → r.kStep ≠ 0) := by
  refine ⟨fun h => ?_, fun h => ?_, fun h => ?_⟩
  · by_cases hs : step = 0 <;> cases ndebug <;> simp [range.ctor, hs] at h
    all_goals
      subst h
      exact hs
  · cases ndebug <;> simp [range.ctor2, range.ctor] at h
    all_goals
      subst h
      exact one_ne_zero
  · by_cases he : 0 < en <;> cases ndebug <;> simp [range.ctor1, he] at h
    all_goals
      subst h
      exact one_ne_zero

/-- C12 at `range( 0, 10, 3 )`, `range( 2, 5 )` and `range( 4 )`, which are all built. -/
theorem ctor_step_ne_zero_witness :
    (range.ctor false 0 10 3 = Except.ok (range.mk 0 10 3) ∧ (range.mk 0 10 3).kStep ≠ 0) ∧
    (range.ctor2 false 2 5 = Except.ok (range.mk 2 5 1) ∧ (range.mk 2 5 1).kStep ≠ 0) ∧
    (range.ctor1 false 4 = Except.ok (range.mk 0 4 1) ∧ (range.mk 0 4 1).kStep ≠ 0) :=
  ⟨⟨rfl, (ctor_step_ne_zero false 0 10 3 (range.mk 0 10 3)).1 rfl⟩,
    ⟨rfl, (ctor_step_ne_zero false 2 5 1 (range.mk 2 5 1)).2.1 rfl⟩,
    ⟨rfl, (ctor_step_ne_zero false 0 4 1 (range.mk 0 4 1)).2.2 rfl⟩⟩

/-- C13: with the assertion compiled out (`NDEBUG`), `range( end )` for `end <= 0` raises no
error: it returns an object with `kFrom = 0`, `kEnd = end`, `kStep = 1`, and the conversion
of that object returns the empty vector. -/
theorem ctor1_nonpositive (en : Int) (h : en ≤ 0) :
    ∃ r, range.ctor1 true en = Except.ok r ∧
      (r.kFrom = 0 ∧ r.kEnd = en ∧ r.kStep = 1) ∧
      r.Materializes [] ∧ ∀ v, r.Materializes v → v = [] := by
  refine ⟨range.mk 0 en 1, by simp [range.ctor1], ⟨rfl, rfl, rfl⟩, ?_⟩
  obtain ⟨k, hm, _, hup, _⟩ := mk_run 0 en 1 one_ne_zero
  have hk : k = 0 := by
    by_contra hk0
    have h1 := (hup one_pos).1 0 (Nat.pos_of_ne_zero hk0)
    simp only [Nat.cast_zero, zero_mul, add_zero] at h1
    omega
  subst hk
  exact ⟨(hm _).2 rfl, fun v hv => (hm v).1 hv⟩

/-- C13 at `range( -3 )` and `range( 0 )`. -/
theorem ctor1_nonpositive_witness :
    ((-3 : Int) ≤ 0 ∧ range.ctor1 true (-3) = Except.ok (range.mk 0 (-3) 1) ∧
      (range.mk 0 (-3) 1).toVector 1 = some []) ∧
    ((0 : Int) ≤ 0 ∧ ∃ r, range.ctor1 true 0 = Except.ok r ∧
      (r.kFrom = 0 ∧ r.kEnd = 0 ∧ r.kStep = 1) ∧
      r.Materializes [] ∧ ∀ v, r.Materializes v → v = []) :=
  ⟨⟨by decide, rfl, by decide⟩, ⟨by decide, ctor1_nonpositive 0 (by decide)⟩⟩

/-! ## Lemmas on cursors and on the unsigned instance -/

/-- While no addition exceeds the largest value of the type, the wrapping loop is the
loop over the integers. -/
theorem pushLoopW_eq_pushLoop (w : Nat) (en step : Int) (hs : 0 ≤ step)
    (hb : en - 1 + step < 2 ^ w) :
    ∀ (fuel : Nat) (i : Int) (v : List Int), 0 ≤ i →
      pushLoopW w (fun x => decide (x < en)) step fuel i v =
        pushLoop (fun x => decide (x < en)) step fuel i v := by
  intro fuel
  induction fuel with
  | zero => intro i v _; rfl
  | succ f ih =>
    intro i v hi
    simp only [pushLoopW, pushLoop]
    by_cases hlt : i < en
    · have hw : wrapAdd w i step = i + step := by
        unfold wrapAdd
        exact Int.emod_eq_of_lt (by omega) (by omega)
      simp only [hlt, decide_True, if_true, hw]
      exact ih (i + step) _ (by omega)
    · simp [hlt]

/-! ## The claims, continued -/

/-- C16: for an unsigned `w`-bit element type, when `step > 0` and either
`end - 1 + step < 2 ^ w` or `from >= end`, the wrapping conversion returns, and returns
exactly what the conversion over the unbounded integers returns (for every amount of fuel
the two runs coincide). -/
theorem toVectorW_no_wrap (w : Nat) (r : range) (hfit : r.FitsW w) (hs : 0 < r.kStep)
    (h : r.kEnd - 1 + r.kStep < 2 ^ w ∨ r.kFrom ≥ r.kEnd) :
    (∀ fuel, r.toVectorW w fuel = r.toVector fuel) ∧
    ∃ v, (∃ fuel, r.toVectorW w fuel = some v) ∧ r.Materializes v ∧
      ∀ fuel u, r.toVectorW w fuel = some u → u = v := by
  have heq : ∀ fuel, r.toVectorW w fuel = r.toVector fuel := by
    intro fuel
    have hp : r.kStep > 0 := hs
    simp only [range.toVectorW, range.toVector, range.p, if_pos hp]
    rcases h with h | h
    · exact pushLoopW_eq_pushLoop w r.kEnd r.kStep hs.le h fuel r.kFrom [] hfit.1.1
    · have hn : ¬ r.kFrom < r.kEnd := by omega
      cases fuel with
      | zero => rfl
      | succ f => simp [pushLoopW, pushLoop, hn]
  obtain ⟨k, hm, _, _, _⟩ := materializes_run r (ne_of_gt hs)
  refine ⟨heq, progression r.kFrom r.kStep k, ?_, (hm _).2 rfl, fun fuel u hu => ?_⟩
  · obtain ⟨fuel, hf⟩ := (hm _).2 rfl
    exact ⟨fuel, (heq fuel).trans hf⟩
  · exact (hm u).1 ⟨fuel, (heq fuel).symm.trans hu⟩

/-- C16 at `w = 64` and `range( 0, 10, 3 )`: the wrapping conversion returns `[0, 3, 6, 9]`
as the unbounded one does. -/
theorem toVectorW_no_wrap_witness :
    (range.mk 0 10 3).FitsW 64 ∧ (0 : Int) < 3 ∧ ((10 : Int) - 1 + 3 < 2 ^ 64) ∧
    (range.mk 0 10 3).toVectorW 64 5 = some [0, 3, 6, 9] ∧
    ∀ fuel, (range.mk 0 10 3).toVectorW 64 fuel = (range.mk 0 10 3).toVector fuel :=
  ⟨by unfold range.FitsW; decide, by decide, by decide, by decide,
    (toVectorW_no_wrap 64 (range.mk 0 10 3) (by unfold range.FitsW; decide) (by decide)
      (Or.inl (by decide))).1⟩

/-- C17: `a == b` on cursors is the negation of `a != b`: for `a.kStep > 0` it holds iff
`a.fVal >= b.fVal`, otherwise iff `a.fVal <= b.fVal`. So `a == a` always holds, while
`a == b` does not imply `b == a`: with `kStep = 1`, the cursor at `5` equals the cursor at
`3` but not the other way round. -/
theorem eq_is_not_ne :
    (∀ a b : range_iter, a.eq b = !(a.ne b)) ∧
    (∀ a b : range_iter, 0 < a.kStep → (a.eq b = true ↔ a.fVal ≥ b.fVal)) ∧
    (∀ a b : range_iter, ¬ 0 < a.kStep → (a.eq b = true ↔ a.fVal ≤ b.fVal)) ∧
    (∀ a : range_iter, a.eq a = true) ∧
    ∃ a b : range_iter, a.eq b = true ∧ b.eq a = false := by
  refine ⟨fun a b => rfl, fun a b h => ?_, fun a b h => ?_, fun a => ?_,
    ⟨range_iter.mk 5 1, range_iter.mk 3 1, by decide, by decide⟩⟩
  · simp [range_iter.eq, range_iter.ne, h]
  · simp [range_iter.eq, range_iter.ne, h]
  · by_cases h : 0 < a.kStep <;> simp [range_iter.eq, range_iter.ne, h]

/-! ## Lemmas on the fixed-width instance -/

theorem IntT.wrap_eq (T : IntT) (x : Int) (h : T.Holds x) : T.wrap x = x := by
  unfold IntT.wrap
  have h1 : 0 ≤ x - T.lo := by
    have := h.1
    omega
  have h2 : x - T.lo < 2 ^ T.bits := by
    have := h.2
    unfold IntT.hi at this
    omega
  rw [Int.emod_eq_of_lt h1 h2]
  omega

/-- While every sum the loop computes is a value of `T`, the loop adding in `T` is the loop
adding in the integers. -/
theorem pushLoopT_eq_pushLoop (T : IntT) (cond : Int → Bool) (step frm : Int)
    (h : ∀ j : Nat, cond (frm + (j : Int) * step) = true →
      T.Holds (frm + ((j : Int) + 1) * step)) :
    ∀ (fuel j : Nat) (v : List Int),
      pushLoopT T cond step fuel (frm + (j : Int) * step) v =
        pushLoop cond step fuel (frm + (j : Int) * step) v := by
  intro fuel
  induction fuel with
  | zero => intro j v; rfl
  | succ f ih =>
    intro j v
    simp only [pushLoopT, pushLoop]
    by_cases hc : cond (frm + (j : Int) * step) = true
    · have e : frm + (j : Int) * step + step = frm + ((j + 1 : Nat) : Int) * step := by
        push_cast
        ring
      have hw : T.wrap (frm + (j : Int) * step + step) = frm + (j : Int) * step + step := by
        apply IntT.wrap_eq
        have := h j hc
        rw [show frm + (j : Int) * step + step = frm + ((j : Int) + 1) * step by ring]
        exact this
      rw [if_pos hc, if_pos hc, hw, e]
      exact ih (j + 1) _
    · rw [if_neg hc, if_neg hc]

theorem toVectorT_eq_toVector (T : IntT) (r : range) (h : r.RunsInT T) (fuel : Nat) :
    r.toVectorT T fuel = r.toVector fuel := by
  unfold range.toVectorT range.toVector range.p range.n
  have key := h.2
  by_cases hp : r.kStep > 0
  · rw [if_pos hp, if_pos hp]
    have := pushLoopT_eq_pushLoop T (fun i => decide (i < r.kEnd)) r.kStep r.kFrom
      (fun j hj => key j (by rw [if_pos hp]; simpa using hj)) fuel 0 []
    simpa using this
  · rw [if_neg hp, if_neg hp]
    have := pushLoopT_eq_pushLoop T (fun i => decide (i > r.kEnd)) r.kStep r.kFrom
      (fun j hj => key j (by rw [if_neg hp]; simpa using hj)) fuel 0 []
    simpa using this

/-- The traversal loop of `range< T >` is its push loop with the cursor comparison as
condition. -/
theorem forEachLoopT_eq_pushLoopT (T : IntT) (last : range_iter) (step : Int) :
    ∀ (fuel : Nat) (i : Int) (seen : List Int),
      forEachLoopT T last fuel { fVal := i, kStep := step } seen =
        pushLoopT T (fun x => range_iter.ne { fVal := x, kStep := step } last) step
          fuel i seen := by
  intro fuel
  induction fuel with
  | zero => intro i seen; rfl
  | succ f ih =>
    intro i seen
    simp only [forEachLoopT, pushLoopT, range_iter.incrT, range_iter.deref]
    rw [ih]

theorem forEachT_eq_toVectorT (T : IntT) (r : range) (fuel : Nat) :
    r.forEachT T fuel = r.toVectorT T fuel := by
  unfold range.forEachT range.toVectorT range.begin_ range.end_
  rw [forEachLoopT_eq_pushLoopT]
  by_cases h : r.kStep > 0 <;> simp [range_iter.ne, h]

/-- The run of the conversion operator of `range< T >` when no addition leaves `T`. -/
theorem mk_runT (T : IntT) (frm en step : Int) (hs : step ≠ 0)
    (hrun : (range.mk frm en step).RunsInT T) :
    ∃ k : Nat,
      (∀ v, (range.mk frm en step).MaterializesT T v ↔ v = progression frm step k) ∧
      (∀ fuel, k < fuel →
        (range.mk frm en step).toVectorT T fuel = some (progression frm step k)) ∧
      (0 < step → (∀ j : Nat, j < k → frm + (j : Int) * step < en) ∧
        en ≤ frm + (k : Int) * step) ∧
      (step < 0 → (∀ j : Nat, j < k → en < frm + (j : Int) * step) ∧
        frm + (k : Int) * step ≤ en) := by
  obtain ⟨k, hrunk, hup, hdown⟩ := toVector_run (range.mk frm en step) hs
  obtain ⟨k2, hm, _, _, _⟩ := mk_run frm en step hs
  have hk : progression frm step k2 = progression frm step k := by
    have : (range.mk frm en step).Materializes (progression frm step k) :=
      ⟨k + 1, by rw [hrunk (k + 1), if_pos (Nat.lt_succ_self k)]⟩
    exact ((hm _).1 this).symm
  refine ⟨k, fun v => ⟨?_, ?_⟩, fun fuel hf => ?_, hup, hdown⟩
  · rintro ⟨fuel, hf⟩
    rw [toVectorT_eq_toVector T _ hrun] at hf
    rw [← hk]
    exact (hm v).1 ⟨fuel, hf⟩
  · rintro rfl
    exact ⟨k + 1, by
      rw [toVectorT_eq_toVector T _ hrun, hrunk (k + 1), if_pos (Nat.lt_succ_self k)]⟩
  · rw [toVectorT_eq_toVector T _ hrun, hrunk fuel, if_pos hf]

/-- An explicit bound under which no addition leaves `T`: for `kStep > 0`,
`kEnd - 1 + kStep` is a value of `T` or `kFrom >= kEnd`; for `kStep < 0`,
`kEnd + 1 + kStep` is a value of `T` or `kFrom <= kEnd`. -/
theorem runsInT_of_bound (T : IntT) (r : range) (hfit : r.FitsT T)
    (h : (0 < r.kStep ∧ (r.kEnd - 1 + r.kStep < T.hi ∨ r.kEnd ≤ r.kFrom)) ∨
      (r.kStep < 0 ∧ (T.lo ≤ r.kEnd + 1 + r.kStep ∨ r.kFrom ≤ r.kEnd))) :
    r.RunsInT T := by
  refine ⟨hfit, fun j hj => ?_⟩
  have hf := hfit.1
  have hj0 : (0 : Int) ≤ (j : Int) := Int.ofNat_nonneg j
  rcases h with ⟨hp, hb⟩ | ⟨hn, hb⟩
  · have hp2 : r.kStep > 0 := hp
    rw [if_pos hp2] at hj
    have hmul : 0 ≤ (j : Int) * r.kStep := mul_nonneg hj0 hp.le
    rcases hb with hb | hb
    · constructor
      · have := hf.1
        nlinarith
      · nlinarith
    · exfalso
      linarith
  · have hn2 : ¬ r.kStep > 0 := by omega
    rw [if_neg hn2] at hj
    have hmul : (j : Int) * r.kStep ≤ 0 := mul_nonpos_of_nonneg_of_nonpos hj0 hn.le
    rcases hb with hb | hb
    · constructor
      · nlinarith
      · have := hf.2
        nlinarith
    · exfalso
      linarith

/-- C1 (as amended): for a fixed-width integral `T`, `step ≠ 0` and members that are
values of `T` such that no addition the loop executes leaves `T`, the conversion of
`range< T >( from, end, step )` returns, the element at every index `i` below the length of
the returned vector is `from + i * step`, and the length is the number of values that pass
the loop test: for `step > 0` every `from + i * step` with `i` below the length is `< end`
and `from + length * step` is not, and for `step < 0` the same with `> end`. -/
theorem materialize_nth_in_T (T : IntT) (frm en step : Int) (hs : step ≠ 0)
    (hrun : (range.mk frm en step).RunsInT T) :
    (∃ v, (range.mk frm en step).MaterializesT T v) ∧
    ∀ v, (range.mk frm en step).MaterializesT T v →
      (∀ (i : Nat) (h : i < v.length), v.get ⟨i, h⟩ = frm + (i : Int) * step) ∧
      (0 < step → (∀ i : Nat, i < v.length → frm + (i : Int) * step < en) ∧
        ¬ (frm + (v.length : Int) * step < en)) ∧
      (step < 0 → (∀ i : Nat, i < v.length → frm + (i : Int) * step > en) ∧
        ¬ (frm + (v.length : Int) * step > en)) := by
  obtain ⟨k, hm, _, hup, hdown⟩ := mk_runT T frm en step hs hrun
  refine ⟨⟨_, (hm _).2 rfl⟩, fun v hv => ?_⟩
  obtain rfl := (hm v).1 hv
  simp only [progression_length]
  refine ⟨fun i h => progression_get _ _ _ _ _, fun hp => ?_, fun hn => ?_⟩
  · exact ⟨(hup hp).1, not_lt.mpr (hup hp).2⟩
  · exact ⟨(hdown hn).1, not_lt.mpr (hdown hn).2⟩

/-- C1 (as amended) at `range< size_t >( 0, 10, 3 )` on a 64-bit target, whose conversion
returns `[0, 3, 6, 9]`. -/
theorem materialize_nth_in_T_witness :
    (3 : Int) ≠ 0 ∧ (range.mk 0 10 3).FitsT (IntT.mk false 64) ∧
    (range.mk 0 10 3).MaterializesT (IntT.mk false 64) [0, 3, 6, 9] ∧
    ∀ (i : Nat) (h : i < ([0, 3, 6, 9] : List Int).length),
      ([0, 3, 6, 9] : List Int).get ⟨i, h⟩ = 0 + (i : Int) * 3 :=
  ⟨by decide, by decide, ⟨5, by decide⟩,
    ((materialize_nth_in_T (IntT.mk false 64) 0 10 3 (by decide)
      (runsInT_of_bound _ _ (by decide) (Or.inl ⟨by decide, Or.inl (by decide)⟩))).2 _
      ⟨5, by decide⟩).1⟩

/-- C1 as stated fails at `T = uint8_t`: the conversion of `range< uint8_t >( 1, 255, 51 )`
returns ten elements, `205 + 51` wraps to `0`, and the element at index `5` is `0`, not
`1 + 5 * 51`. -/
theorem materialize_nth_wrap_counterexample :
    (range.mk 1 255 51).FitsT (IntT.mk false 8) ∧ (51 : Int) ≠ 0 ∧
    (range.mk 1 255 51).toVectorT (IntT.mk false 8) 11
      = some [1, 52, 103, 154, 205, 0, 51, 102, 153, 204] ∧
    ¬ (∀ v, (range.mk 1 255 51).MaterializesT (IntT.mk false 8) v →
      ∀ (i : Nat) (h : i < v.length), v.get ⟨i, h⟩ = 1 + (i : Int) * 51) := by
  refine ⟨by decide, by decide, by decide, fun h => ?_⟩
  have h5 := h [1, 52, 103, 154, 205, 0, 51, 102, 153, 204] ⟨11, by decide⟩ 5 (by decide)
  revert h5
  decide

/-- C2 (as amended): for a fixed-width integral `T`, `step ≠ 0` and members that are
values of `T` such that no addition the loop executes leaves `T`, the conversion of
`range< T >( from, end, step )` returns a vector whose length is
`max( 0, ceil( ( end - from ) / step ) )`, the quotient taken in the rationals. -/
theorem materialize_length_in_T (T : IntT) (frm en step : Int) (hs : step ≠ 0)
    (hrun : (range.mk frm en step).RunsInT T) :
    (∃ v, (range.mk frm en step).MaterializesT T v) ∧
    ∀ v, (range.mk frm en step).MaterializesT T v →
      (v.length : Int) = max 0 ⌈((en - frm : Int) : ℚ) / (step : ℚ)⌉ := by
  obtain ⟨k, hm, _, hup, hdown⟩ := mk_runT T frm en step hs hrun
  refine ⟨⟨_, (hm _).2 rfl⟩, fun v hv => ?_⟩
  obtain rfl := (hm v).1 hv
  rw [progression_length]
  rcases Nat.eq_zero_or_pos k with hk | hk
  · subst hk
    have hq : ((en - frm : Int) : ℚ) / (step : ℚ) ≤ 0 := by
      rcases lt_or_gt_of_ne hs with hneg | hpos
      · have h2 := (hdown hneg).2
        have h3 : (0 : ℚ) ≤ ((en - frm : Int) : ℚ) := by
          have : (0 : Int) ≤ en - frm := by simpa using h2
          exact_mod_cast this
        have h4 : (step : ℚ) ≤ 0 := by exact_mod_cast hneg.le
        exact div_nonpos_of_nonneg_of_nonpos h3 h4
      · have h2 := (hup hpos).2
        have h3 : ((en - frm : Int) : ℚ) ≤ 0 := by
          have : en - frm ≤ (0 : Int) := by simpa using h2
          exact_mod_cast this
        have h4 : (0 : ℚ) ≤ (step : ℚ) := by exact_mod_cast hpos.le
        exact div_nonpos_of_nonpos_of_nonneg h3 h4
    have hc : ⌈((en - frm : Int) : ℚ) / (step : ℚ)⌉ ≤ 0 := Int.ceil_le.mpr (by simpa using hq)
    rw [max_eq_left hc]
    rfl
  · have hc : ⌈((en - frm : Int) : ℚ) / (step : ℚ)⌉ = (k : Int) := by
      rw [Int.ceil_eq_iff]
      rcases lt_or_gt_of_ne hs with hneg | hpos
      · have hq : (step : ℚ) < 0 := by exact_mod_cast hneg
        have h1 := (hdown hneg).1 (k - 1) (by omega)
        have h2 := (hdown hneg).2
        have hk1 : ((k - 1 : Nat) : Int) = (k : Int) - 1 := by omega
        rw [hk1] at h1
        constructor
        · rw [lt_div_iff_of_neg hq]
          have : en - frm < ((k : Int) - 1) * step := by linarith
          exact_mod_cast this
        · rw [div_le_iff_of_neg hq]
          have : (k : Int) * step ≤ en - frm := by linarith
          exact_mod_cast this
      · have hq : (0 : ℚ) < (step : ℚ) := by exact_mod_cast hpos
        have h1 := (hup hpos).1 (k - 1) (by omega)
        have h2 := (hup hpos).2
        have hk1 : ((k - 1 : Nat) : Int) = (k : Int) - 1 := by omega
        rw [hk1] at h1
        constructor
        · rw [lt_div_iff₀ hq]
          have : ((k : Int) - 1) * step < en - frm := by linarith
          exact_mod_cast this
        · rw [div_le_iff₀ hq]
          have : en - frm ≤ (k : Int) * step := by linarith
          exact_mod_cast this
    rw [hc]
    exact (max_eq_right (Int.ofNat_nonneg k)).symm

/-- C2 (as amended) at `range< size_t >( 0, 10, 3 )`: four elements, `ceil( 10 / 3 ) = 4`. -/
theorem materialize_length_in_T_witness :
    (3 : Int) ≠ 0 ∧ (range.mk 0 10 3).FitsT (IntT.mk false 64) ∧
    (range.mk 0 10 3).MaterializesT (IntT.mk false 64) [0, 3, 6, 9] ∧
    ((([0, 3, 6, 9] : List Int).length : Nat) : Int)
      = max 0 ⌈(((10 : Int) - 0 : Int) : ℚ) / ((3 : Int) : ℚ)⌉ :=
  ⟨by decide, by decide, ⟨5, by decide⟩,
    (materialize_length_in_T (IntT.mk false 64) 0 10 3 (by decide)
      (runsInT_of_bound _ _ (by decide) (Or.inl ⟨by decide, Or.inl (by decide)⟩))).2 _
      ⟨5, by decide⟩⟩

/-- C2 as stated fails at `T = uint8_t`: the conversion of `range< uint8_t >( 1, 255, 51 )`
returns ten elements, while `max( 0, ceil( 254 / 51 ) )` is `5`. -/
theorem materialize_length_wrap_counterexample :
    (range.mk 1 255 51).FitsT (IntT.mk false 8) ∧ (51 : Int) ≠ 0 ∧
    (range.mk 1 255 51).toVectorT (IntT.mk false 8) 11
      = some [1, 52, 103, 154, 205, 0, 51, 102, 153, 204] ∧
    max 0 ⌈(((255 : Int) - 1 : Int) : ℚ) / ((51 : Int) : ℚ)⌉ = 5 ∧
    ¬ (∀ v, (range.mk 1 255 51).MaterializesT (IntT.mk false 8) v →
      (v.length : Int) = max 0 ⌈(((255 : Int) - 1 : Int) : ℚ) / ((51 : Int) : ℚ)⌉) := by
  have hc : ⌈(((255 : Int) - 1 : Int) : ℚ) / ((51 : Int) : ℚ)⌉ = 5 := by
    rw [Int.ceil_eq_iff]
    norm_num
  refine ⟨by decide, by decide, by decide, by rw [hc]; rfl, fun h => ?_⟩
  have h10 := h [1, 52, 103, 154, 205, 0, 51, 102, 153, 204] ⟨11, by decide⟩
  rw [hc] at h10
  revert h10
  decide

/-- C7 (as amended): for a fixed-width integral `T`, `step < 0` and members that are values
of `T` such that no addition the loop executes leaves `T`, the conversion of
`range< T >( from, end, step )` returns a strictly descending vector: each element is
strictly smaller than the one before it (and hence than every earlier one). -/
theorem materialize_descending_in_T (T : IntT) (frm en step : Int) (hs : step < 0)
    (hrun : (range.mk frm en step).RunsInT T) :
    (∃ v, (range.mk frm en step).MaterializesT T v) ∧
    ∀ v, (range.mk frm en step).MaterializesT T v →
      List.Chain' (fun a b => b < a) v ∧ List.Pairwise (fun a b => b < a) v := by
  obtain ⟨k, hm, _, _, _⟩ := mk_runT T frm en step (ne_of_lt hs) hrun
  refine ⟨⟨_, (hm _).2 rfl⟩, fun v hv => ?_⟩
  obtain rfl := (hm v).1 hv
  have hp : List.Pairwise (fun a b => b < a) (progression frm step k) := by
    unfold progression
    rw [List.pairwise_map]
    refine (List.pairwise_lt_range k).imp ?_
    intro a b hab
    have : (a : Int) < (b : Int) := by exact_mod_cast hab
    nlinarith
  exact ⟨hp.chain', hp⟩

/-- C7 (as amended) at `range< int >( 10, 0, -3 )`, whose conversion returns
`[10, 7, 4, 1]`. -/
theorem materialize_descending_in_T_witness :
    (-3 : Int) < 0 ∧ (range.mk 10 0 (-3)).FitsT (IntT.mk true 32) ∧
    (range.mk 10 0 (-3)).MaterializesT (IntT.mk true 32) [10, 7, 4, 1] ∧
    List.Chain' (fun a b : Int => b < a) [10, 7, 4, 1] :=
  ⟨by decide, by decide, ⟨5, by decide⟩,
    ((materialize_descending_in_T (IntT.mk true 32) 10 0 (-3) (by decide)
      (runsInT_of_bound _ _ (by decide) (Or.inr ⟨by decide, Or.inl (by decide)⟩))).2 _
      ⟨5, by decide⟩).1⟩

/-- C7 as stated fails at `T = int8_t`: the conversion of
`range< int8_t >( -83, -100, -100 )` returns `[-83, 73, -27]`, since `-83 - 100` wraps to
`73`; the second element is larger than the first. -/
theorem materialize_descending_wrap_counterexample :
    (range.mk (-83) (-100) (-100)).FitsT (IntT.mk true 8) ∧ (-100 : Int) < 0 ∧
    (range.mk (-83) (-100) (-100)).toVectorT (IntT.mk true 8) 4 = some [-83, 73, -27] ∧
    ¬ (∀ v, (range.mk (-83) (-100) (-100)).MaterializesT (IntT.mk true 8) v →
      List.Chain' (fun a b => b < a) v) := by
  refine ⟨by decide, by decide, by decide, fun h => ?_⟩
  have h3 := h [-83, 73, -27] ⟨4, by decide⟩
  rw [List.chain'_cons] at h3
  exact absurd h3.1 (by decide)

/-- C10 (as amended): for a fixed-width integral `T`, `step ≠ 0` and members that are
values of `T` such that no addition the loops execute leaves `T`, both the conversion to a
vector and the range-based `for` traversal of `range< T >( from, end, step )` leave their
loop: there is a number `N` of loop tests such that with `N` or more units of fuel each of
them returns, always the same result, whether or not the stepping lands on `end`. -/
theorem loops_terminate_in_T (T : IntT) (frm en step : Int) (hs : step ≠ 0)
    (hrun : (range.mk frm en step).RunsInT T) :
    ∃ (N : Nat) (v w : List Int), ∀ fuel, N ≤ fuel →
      (range.mk frm en step).toVectorT T fuel = some v ∧
      (range.mk frm en step).forEachT T fuel = some w := by
  obtain ⟨k, _, hfuel, _, _⟩ := mk_runT T frm en step hs hrun
  refine ⟨k + 1, progression frm step k, progression frm step k, fun fuel hf => ?_⟩
  have h := hfuel fuel (by omega)
  exact ⟨h, (forEachT_eq_toVectorT T _ fuel).trans h⟩

/-- C10 (as amended) at `range< size_t >( 0, 10, 3 )`, whose stepping goes from `9` to `12`
over the end value `10`: five loop tests are enough for both loops. -/
theorem loops_terminate_in_T_witness :
    (3 : Int) ≠ 0 ∧ (range.mk 0 10 3).FitsT (IntT.mk false 64) ∧
    (∃ (N : Nat) (v w : List Int), ∀ fuel, N ≤ fuel →
      (range.mk 0 10 3).toVectorT (IntT.mk false 64) fuel = some v ∧
      (range.mk 0 10 3).forEachT (IntT.mk false 64) fuel = some w) ∧
    (range.mk 0 10 3).toVectorT (IntT.mk false 64) 5 = some [0, 3, 6, 9] ∧
    (range.mk 0 10 3).forEachT (IntT.mk false 64) 5 = some [0, 3, 6, 9] :=
  ⟨by decide, by decide,
    loops_terminate_in_T (IntT.mk false 64) 0 10 3 (by decide)
      (runsInT_of_bound _ _ (by decide) (Or.inl ⟨by decide, Or.inl (by decide)⟩)),
    by decide, by decide⟩

/-- The loop of `range< size_t >( 0, SIZE_MAX, 2 )`: an even `i` is below `SIZE_MAX`, and
`i + 2` computed in `size_t` is even again, so the loop test never fails. -/
theorem pushLoopT_even_step_runs_on :
    ∀ (fuel : Nat) (i : Int) (v : List Int), 0 ≤ i → i < 2 ^ 64 → i % 2 = 0 →
      pushLoopT (IntT.mk false 64) (fun x => decide (x < 2 ^ 64 - 1)) 2 fuel i v = none := by
  intro fuel
  induction fuel with
  | zero => intro i v _ _ _; rfl
  | succ f ih =>
    intro i v h0 h1 h2
    have hc : i < 2 ^ 64 - 1 := by omega
    simp only [pushLoopT, hc, decide_True, if_true]
    have hw : (IntT.mk false 64).wrap (i + 2) = (i + 2) % 2 ^ 64 := by
      simp [IntT.wrap, IntT.lo]
    rw [hw]
    exact ih _ _ (by omega) (by omega) (by omega)

/-- C10 as stated fails at the default `T = size_t` (64 bits): for
`range( 0, SIZE_MAX, 2 )` neither the conversion nor the traversal ever returns, because
`i` stays even and `SIZE_MAX - 1 + 2` wraps to `0`. -/
theorem loops_never_return_counterexample :
    (range.mk 0 (2 ^ 64 - 1) 2).FitsT (IntT.mk false 64) ∧ (2 : Int) ≠ 0 ∧
    ¬ (∃ fuel v, (range.mk 0 (2 ^ 64 - 1) 2).toVectorT (IntT.mk false 64) fuel = some v) ∧
    ¬ (∃ fuel v, (range.mk 0 (2 ^ 64 - 1) 2).forEachT (IntT.mk false 64) fuel = some v) := by
  have hnone : ∀ fuel, (range.mk 0 (2 ^ 64 - 1) 2).toVectorT (IntT.mk false 64) fuel = none := by
    intro fuel
    have hp : (range.mk 0 (2 ^ 64 - 1) 2).kStep > 0 := by decide
    simp only [range.toVectorT, if_pos hp]
    exact pushLoopT_even_step_runs_on fuel 0 [] (by decide) (by decide) (by decide)
  refine ⟨by decide, by decide, ?_, ?_⟩
  · rintro ⟨fuel, v, h⟩
    rw [hnone fuel] at h
    cases h
  · rintro ⟨fuel, v, h⟩
    rw [forEachT_eq_toVectorT, hnone fuel] at h
    cases h

/-- The conversion at an unsigned `w`-bit type written with `wrapAdd` is the conversion of
`range< T >` at `T = { signed := false, bits := w }`. -/
theorem toVectorW_eq_toVectorT (w : Nat) (r : range) (fuel : Nat) :
    r.toVectorW w fuel = r.toVectorT (IntT.mk false w) fuel := by
  have key : ∀ (cond : Int → Bool) (step : Int) (fuel : Nat) (i : Int) (v : List Int),
      pushLoopW w cond step fuel i v = pushLoopT (IntT.mk false w) cond step fuel i v := by
    intro cond step fuel
    induction fuel with
    | zero => intro i v; rfl
    | succ f ih =>
      intro i v
      simp only [pushLoopW, pushLoopT, ih]
      simp [wrapAdd, IntT.wrap, IntT.lo]
  simp only [range.toVectorW, range.toVectorT, key]

end CppBook
